import Mathlib

/-!
A shallow embedding of the release-pilot conventional-commit engine
(src/parser.js, src/bumper.js, src/changelog.js, src/tagger.js).

Strings are modelled as `List Char` so that the string manipulation the
source performs (split, trim, regex matching) can be reasoned about by
induction.  JavaScript regular expressions used by the source are anchored
and backtracking-free in effect (argued at each definition), so they are
embedded as deterministic matchers.  JavaScript numbers produced by
`Number(string)` are modelled exactly as rationals (IEEE-754 double
rounding and very large magnitudes are not modelled; every value reached
by the claims is a small integer).  Ambient effects (git queries, the
current date) are modelled as explicit parameters.
-/

namespace ReleasePilot

abbrev Str := List Char

/-- JavaScript WhiteSpace ∪ LineTerminator (the set used both by
`String.prototype.trim` and by the regex class `\s`); the rarely used
non-ASCII space separators beyond U+00A0/U+FEFF are omitted. -/
def isJsWs (c : Char) : Bool :=
  c = ' ' || c = '\t' || c = '\n' || c = '\r' ||
  c = '\u000b' || c = '\u000c' || c = '\u00a0' || c = '\ufeff' ||
  c = '\u2028' || c = '\u2029'

/-- `String.prototype.trim`. -/
def jsTrim (s : Str) : Str :=
  ((s.dropWhile isJsWs).reverse.dropWhile isJsWs).reverse

/-- `String.prototype.split` with a single-character separator.
Always returns a non-empty list; adjacent separators yield empty parts. -/
def splitOnChar (sep : Char) : Str → List Str
  | [] => [[]]
  | c :: cs =>
    match splitOnChar sep cs with
    | [] => if c = sep then [[], []] else [[c]]
    | r :: rs => if c = sep then [] :: r :: rs else (c :: r) :: rs

/-- `Array.prototype.join('\n')`. -/
def joinLines (ls : List Str) : Str := List.intercalate ['\n'] ls

/-- Greedy longest-prefix split: the maximal prefix satisfying `p` and the
rest (the behaviour of a greedy regex atom such as `[a-z]+` or `[^)]+`). -/
def spanP (p : Char → Bool) : Str → Str × Str
  | [] => ([], [])
  | c :: cs =>
    if p c then
      let r := spanP p cs
      (c :: r.1, r.2)
    else ([], c :: cs)

/-- The regex character class `[a-z]` (ASCII, case-sensitive). -/
def isLowerAZ (c : Char) : Bool := 'a' ≤ c && c ≤ 'z'

/-- `.` in a JavaScript regex without the `s` flag: any character except a
line terminator. -/
def jsDotChar (c : Char) : Bool :=
  !(c = '\n' || c = '\r' || c = '\u2028' || c = '\u2029')

/-- Result of a successful match of `COMMIT_PATTERN` (parser.js line 223):
`^(?<type>[a-z]+)(?:\((?<scope>[^)]+)\))?(?<breaking>!)?\s*:\s*(?<description>.+)$`. -/
structure CommitMatch where
  type : Str
  scope : Option Str
  bang : Bool
  description : Str
deriving DecidableEq, Repr

/-- The tail `\s*(?<description>.+)$` of `COMMIT_PATTERN`, applied after the
colon.  `\s*` is greedy but backtracks: the description is the longest
non-empty line-terminator-free suffix reachable by giving whitespace back.
If the remainder after maximal `\s*` is non-empty it is the description
(and must be line-terminator free, since shrinking `\s*` only prepends
characters); if it is empty the regex gives back one whitespace character,
which `.` must then accept. -/
def matchDescription (r : Str) : Option Str :=
  let d := r.dropWhile isJsWs
  if d ≠ [] then
    if d.all jsDotChar then some d else none
  else
    match r.getLast? with
    | none => none
    | some c => if jsDotChar c then some [c] else none

/-- The part of `COMMIT_PATTERN` after the type and optional scope:
`(?<breaking>!)?\s*:\s*(?<description>.+)$`.  `!` can only match
immediately; the first non-whitespace character must then be the colon
(`:` is not whitespace, so greedy `\s*` is deterministic here). -/
def matchAfterScope (ty : Str) (sc : Option Str) (r : Str) : Option CommitMatch :=
  let br : Bool × Str := match r with
    | '!' :: t => (true, t)
    | t => (false, t)
  match br.2.dropWhile isJsWs with
  | ':' :: r2 => (matchDescription r2).map (fun d => ⟨ty, sc, br.1, d⟩)
  | _ => none

/-- `COMMIT_PATTERN` as a whole.  The leading `[a-z]+` is forced to its
maximal munch (no following atom can consume a lowercase letter); the
optional scope group `\((?<scope>[^)]+)\)` either matches up to the first
`)` or fails, and on failure the leftover `(` can match none of `!`, `\s`,
`:`, so the whole pattern fails. -/
def matchCommitPattern (s : Str) : Option CommitMatch :=
  let sp := spanP isLowerAZ s
  if sp.1 = [] then none
  else
    match sp.2 with
    | '(' :: r2 =>
      let sp2 := spanP (fun c => c ≠ ')') r2
      match sp2.2 with
      | ')' :: r4 => if sp2.1 = [] then none else matchAfterScope sp.1 (some sp2.1) r4
      | _ => none
    | _ => matchAfterScope sp.1 none sp.2

/-- Match of `BREAKING_BODY_PATTERN = /BREAKING CHANGE[:\s]/i` at the head
of a string: the first 15 characters case-fold to `breaking change` and
the next character is a colon or whitespace. -/
def breakingBodyAt (cs : Str) : Bool :=
  "breaking change".toList.isPrefixOf (cs.map Char.toLower) &&
  match cs.drop 15 with
  | c :: _ => c = ':' || isJsWs c
  | [] => false

/-- `BREAKING_BODY_PATTERN.test(body)`: an unanchored search. -/
def breakingBodyTest : Str → Bool
  | [] => false
  | c :: cs => breakingBodyAt (c :: cs) || breakingBodyTest cs

/-- A parsed commit (the object literal returned by `parseCommit`). -/
structure Commit where
  hash : Str
  type : Str
  scope : Option Str
  description : Str
  body : Str
  breaking : Bool
  raw : Str
deriving DecidableEq, Repr

/-- `(parts[0] || '').trim()` for `parts = raw.split('\x00')`. -/
def hashOf (raw : Str) : Str := jsTrim ((splitOnChar '\u0000' raw).getD 0 [])

/-- `(parts[1] || '').trim()`. -/
def subjectOf (raw : Str) : Str := jsTrim ((splitOnChar '\u0000' raw).getD 1 [])

/-- `(parts[2] || '').trim()`. -/
def bodyOf (raw : Str) : Str := jsTrim ((splitOnChar '\u0000' raw).getD 2 [])

/-- `parseCommit` (parser.js lines 231-264).  On a grammar match the body
override `BREAKING_BODY_PATTERN.test(body)` is consulted; on no match the
early return carries `breaking: false` without looking at the body. -/
def parseCommit (raw : Str) : Option Commit :=
  let hash := hashOf raw
  let subject := subjectOf raw
  let body := bodyOf raw
  if subject = [] then none
  else
    match matchCommitPattern subject with
    | none =>
      some ⟨hash, "other".toList, none, subject, body, false, subject⟩
    | some m =>
      let isBreaking := m.bang || breakingBodyTest body
      some ⟨hash, m.type.map Char.toLower, m.scope, jsTrim m.description,
            jsTrim body, isBreaking, subject⟩

/-- `parseCommits` (parser.js lines 271-275): map then drop the `null`s. -/
def parseCommits (rawCommits : List Str) : List Commit :=
  (rawCommits.map parseCommit).filterMap id

/-- `COMMIT_TYPES` (parser.js lines 280-293): token ↦ (label, order). -/
def COMMIT_TYPES : List (Str × Str × Nat) :=
  [ ("feat".toList,     ("Features".toList,      0)),
    ("fix".toList,      ("Bug Fixes".toList,     1)),
    ("perf".toList,     ("Performance".toList,   2)),
    ("refactor".toList, ("Refactoring".toList,   3)),
    ("docs".toList,     ("Documentation".toList, 4)),
    ("test".toList,     ("Tests".toList,         5)),
    ("ci".toList,       ("CI / CD".toList,       6)),
    ("chore".toList,    ("Chores".toList,        7)),
    ("build".toList,    ("Build System".toList,  8)),
    ("style".toList,    ("Style".toList,         9)),
    ("revert".toList,   ("Reverts".toList,       10)),
    ("other".toList,    ("Other Changes".toList, 11)) ]

/-- The property names every object literal inherits from
`Object.prototype`; their values (functions, and the prototype object for
`__proto__`) are all truthy. -/
def OBJECT_PROTO_PROPS : List Str :=
  [ "constructor".toList, "hasOwnProperty".toList, "isPrototypeOf".toList,
    "propertyIsEnumerable".toList, "toLocaleString".toList, "toString".toList,
    "valueOf".toList, "__defineGetter__".toList, "__defineSetter__".toList,
    "__lookupGetter__".toList, "__lookupSetter__".toList, "__proto__".toList ]

/-- Truthiness of `COMMIT_TYPES[t]`: JavaScript property access walks the
prototype chain, so besides the registry's own keys the inherited
`Object.prototype` properties are truthy too (`COMMIT_TYPES['constructor']`
is the `Object` constructor function). -/
def knownType (t : Str) : Bool :=
  (COMMIT_TYPES.lookup t).isSome || OBJECT_PROTO_PROPS.contains t

/-- `COMMIT_TYPES[t]?.order ?? 99`. -/
def typeOrder (t : Str) : Nat :=
  match COMMIT_TYPES.lookup t with
  | some (_, o) => o
  | none => 99

/-- `COMMIT_TYPES[t]?.label ?? 'Other'`. -/
def typeLabel (t : Str) : Str :=
  match COMMIT_TYPES.lookup t with
  | some (l, _) => l
  | none => "Other".toList

/-- `COMMIT_TYPES[commit.type] ? commit.type : 'other'` (changelog.js line 59). -/
def normType (t : Str) : Str := if knownType t then t else "other".toList

/-- The keys of the insertion-ordered `Map` built by `groupByType`
(changelog.js lines 56-62): normalized types in order of first occurrence. -/
def groupKeys (commits : List Commit) : List Str :=
  commits.foldl
    (fun ks c =>
      let k := normType c.type
      if k ∈ ks then ks else ks ++ [k])
    []

/-- `groupByType` (changelog.js lines 55-74).  A JavaScript `Map` preserves
insertion order and each key's array collects, in input order, exactly the
commits whose normalized type is that key; the entries are then sorted by
display order (`Array.prototype.sort` is stable, and here all present
orders are distinct). -/
def groupByType (commits : List Commit) : List (Str × List Commit) :=
  let entries := (groupKeys commits).map
    (fun k => (k, commits.filter (fun c => normType c.type == k)))
  List.insertionSort (fun a b => typeOrder a.1 ≤ typeOrder b.1) entries

/-- `hasBreakingChanges` (changelog.js lines 81-83). -/
def hasBreakingChanges (commits : List Commit) : Bool :=
  commits.any (·.breaking)

/-- The `**scope**: ` prefix used by breaking-change bullets and entries. -/
def scopePrefix (sc : Option Str) : Str :=
  match sc with
  | some s => if s = [] then [] else "**".toList ++ s ++ "**: ".toList
  | none => []

/-- `collectBreakingChanges` (changelog.js lines 90-97). -/
def collectBreakingChanges (commits : List Commit) : List Str :=
  (commits.filter (·.breaking)).map (fun c => scopePrefix c.scope ++ c.description)

/-- `formatEntry` (changelog.js lines 104-108); an empty hash (falsy)
suppresses the identifier suffix. -/
def formatEntry (c : Commit) : Str :=
  let hash := if c.hash = [] then [] else " ([".toList ++ c.hash.take 7 ++ "])".toList
  "- ".toList ++ scopePrefix c.scope ++ c.description ++ hash

/-- The lines of one `### <label>` category section of the changelog. -/
def sectionLines (g : Str × List Commit) : List Str :=
  ["### ".toList ++ typeLabel g.1, []] ++ g.2.map formatEntry ++ [[]]

/-- The trailing reference-link line (changelog.js lines 146-154); an empty
`lastTag` string is falsy in `if (lastTag)`. -/
def refLink (version : Str) (lastTag : Option Str) : Str :=
  match lastTag with
  | some tag =>
    if tag = [] then
      "[".toList ++ version ++
        "]: https://github.com/NickCirv/release-pilot/releases/tag/v".toList ++ version
    else
      "[".toList ++ version ++
        "]: https://github.com/NickCirv/release-pilot/compare/".toList ++ tag ++
        "...v".toList ++ version
  | none =>
    "[".toList ++ version ++
      "]: https://github.com/NickCirv/release-pilot/releases/tag/v".toList ++ version

/-- `generateChangelog` (changelog.js lines 118-157).  The current date
(`new Date().toISOString().slice(0, 10)`) is the only ambient input and is
modelled as the explicit parameter `today`. -/
def generateChangelog (version : Str) (commits : List Commit) (lastTag : Option Str)
    (today : Str) : Str :=
  let groups := groupByType commits
  let breaking := collectBreakingChanges commits
  let lines : List Str :=
    ["## [".toList ++ version ++ "] - ".toList ++ today, []] ++
    (if breaking = [] then []
     else ["### BREAKING CHANGES".toList, []] ++ breaking.map ("- ".toList ++ ·) ++ [[]]) ++
    (groups.flatMap sectionLines) ++
    [refLink version lastTag]
  joinLines lines

/-- Modelled from the spec: a variant of `generateChangelog` whose category
sections "group remaining commits", i.e. group only the commits that are
not breaking (spec §4.4); used to compare the source's behaviour against
the spec's words. -/
def generateChangelogSpecGrouping (version : Str) (commits : List Commit)
    (lastTag : Option Str) (today : Str) : Str :=
  let groups := groupByType (commits.filter (fun c => !c.breaking))
  let breaking := collectBreakingChanges commits
  let lines : List Str :=
    ["## [".toList ++ version ++ "] - ".toList ++ today, []] ++
    (if breaking = [] then []
     else ["### BREAKING CHANGES".toList, []] ++ breaking.map ("- ".toList ++ ·) ++ [[]]) ++
    (groups.flatMap sectionLines) ++
    [refLink version lastTag]
  joinLines lines

/-- `determineBumpType` (bumper.js lines 15-24); the membership test over
the `Set` of types is the same predicate as an existence check. -/
def determineBumpType (commits : List Commit) : Str :=
  if hasBreakingChanges commits then "major".toList
  else if commits.any (fun c => c.type == "feat".toList) then "minor".toList
  else "patch".toList

/-- A JavaScript number value reachable from `Number(string)`, modelled
exactly in decimal fixed-point: `finite m k` denotes `m / 10 ^ k`, the
precise value of every finite numeric literal (IEEE-754 rounding of large
or high-precision literals is not modelled; NaN is represented by
`Option`). -/
inductive JSNum where
  | finite (m : Int) (k : Nat)
  | inf (neg : Bool)
deriving DecidableEq, Repr

/-- The number `0`. -/
def jsZero : JSNum := .finite 0 0

/-- The regex class `[0-9]`. -/
def isDigitChar (c : Char) : Bool := '0' ≤ c && c ≤ '9'

/-- Value of a decimal digit character. -/
def digitVal (c : Char) : Nat := c.toNat - 48

/-- Value of a string of decimal digits. -/
def digitsVal (ds : Str) : Nat := ds.foldl (fun a c => 10 * a + digitVal c) 0

/-- Value of a string of digits in base `b` (hex digits case-insensitive). -/
def radixVal (b : Nat) (ds : Str) : Nat :=
  ds.foldl (fun a c => b * a + (if 'a' ≤ c.toLower && c.toLower ≤ 'z'
                                then c.toLower.toNat - 87 else digitVal c)) 0

/-- Whether `c` is a digit of base `b ∈ {2, 8, 16}`. -/
def isRadixDigit (b : Nat) (c : Char) : Bool :=
  if b = 16 then isDigitChar c || ('a' ≤ c.toLower && c.toLower ≤ 'f')
  else '0' ≤ c && c.toNat < 48 + b

/-- Number of binary digits of `n` (fuel-based so that it reduces in the
kernel; `bitLen` supplies sufficient fuel). -/
def bitLenAux : Nat → Nat → Nat
  | 0, _ => 0
  | fuel + 1, n => if n = 0 then 0 else bitLenAux fuel (n / 2) + 1

/-- Number of binary digits of `n`: `2 ^ (bitLen n - 1) ≤ n < 2 ^ bitLen n`
for `n ≥ 1`. -/
def bitLen (n : Nat) : Nat := bitLenAux (n + 1) n

/-- Nearest integer to `num / den` with ties going to the even integer
(the IEEE-754 default rounding). -/
def roundTiesEven (num den : Nat) : Nat :=
  let q := num / den
  let r := num % den
  if 2 * r < den then q
  else if den < 2 * r then q + 1
  else if q % 2 = 0 then q else q + 1

/-- Whether `2 ^ e ≤ M / 10 ^ k`, by exact integer cross-multiplication. -/
def pow2le (e : Int) (M k : Nat) : Bool :=
  if 0 ≤ e then 2 ^ e.toNat * 10 ^ k ≤ M
  else 10 ^ k ≤ M * 2 ^ (-e).toNat

/-- Downward scan for the largest `e` with `2 ^ e ≤ M / 10 ^ k`. -/
def floorLog2Aux (M k : Nat) : Nat → Int → Int
  | 0, e => e
  | fuel + 1, e => if pow2le e M k then e else floorLog2Aux M k fuel (e - 1)

/-- `⌊log₂ (M / 10 ^ k)⌋` for `M ≥ 1`: the scan starts above the value
(`M / 10 ^ k < 2 ^ bitLen M`) and the value is at least `2 ^ (-4k)`, so the
fuel always suffices. -/
def floorLog2 (M k : Nat) : Int :=
  floorLog2Aux M k (bitLen M + 4 * k + 2) (bitLen M)

/-- Reduce `m / 10 ^ k` to lowest decimal terms: a number value has a
unique representation with `m` not divisible by 10 (or `k = 0`). -/
def normFix (m : Int) : Nat → Int × Nat
  | 0 => (m, 0)
  | k + 1 => if m % 10 = 0 then normFix (m / 10) k else (m, k + 1)

/-- A finite number from a decimal fixed-point pair, in lowest terms. -/
def finNorm (m : Int) (k : Nat) : JSNum :=
  let n := normFix m k
  .finite n.1 n.2

/-- Round the exact rational `m / 10 ^ k` to the nearest IEEE-754 double
(round-to-nearest, ties-to-even), returned as its exact decimal value
(every double is a dyadic rational, hence exactly a decimal fixed-point
value).  Integers of magnitude at most `2 ^ 53` are exactly representable,
so they are returned unchanged without the exponent search; otherwise the
significand is the correctly rounded 53-bit value `s` at binary exponent
`p = ⌊log₂ |x|⌋ - 52` (clamped at the subnormal limit `-1074`), the result
is `±s·2^p`, and a rounded magnitude of `2 ^ 1024` or more overflows to
infinity. -/
def nearestDouble (m : Int) (k : Nat) : JSNum :=
  if m = 0 then .finite 0 0
  else if k = 0 && m.natAbs ≤ 2 ^ 53 then .finite m 0
  else
    let M := m.natAbs
    let e := floorLog2 M k
    let p := max (e - 52) (-1074)
    let s :=
      if 0 ≤ p then roundTiesEven M (10 ^ k * 2 ^ p.toNat)
      else roundTiesEven (M * 2 ^ (-p).toNat) (10 ^ k)
    if 0 ≤ p then
      if 2 ^ 1024 ≤ s * 2 ^ p.toNat then .inf (m < 0)
      else finNorm ((if m < 0 then -1 else 1) * (s * 2 ^ p.toNat : Nat)) 0
    else
      finNorm ((if m < 0 then -1 else 1) * (s * 5 ^ (-p).toNat : Nat)) (-p).toNat

/-- `n + 1` on JavaScript numbers: the exact sum is rounded to the nearest
double, as IEEE-754 addition requires (`Infinity + 1 = Infinity`).  At
`2 ^ 53` the tie rounds back down to the even significand, so the
increment is lost. -/
def jsAddOne : JSNum → JSNum
  | .finite m k => nearestDouble (m + 10 ^ k) k
  | .inf n => .inf n

/-- An optional leading sign; returns the negative flag and the rest. -/
def parseSign : Str → Bool × Str
  | '+' :: r => (false, r)
  | '-' :: r => (true, r)
  | r => (false, r)

/-- The optional exponent part `[eE][+-]?[0-9]+` which must end the string;
an absent exponent contributes `0`. -/
def parseExpAndEnd : Str → Option Int
  | [] => some 0
  | c :: r =>
    if c = 'e' || c = 'E' then
      let (neg, r1) := parseSign r
      let (ds, r2) := spanP isDigitChar r1
      if ds = [] || r2 ≠ [] then none
      else some (if neg then -(digitsVal ds : Int) else (digitsVal ds : Int))
    else none

/-- The value of a decimal literal from its pieces: the exact rational
`±(intD.fracD) × 10 ^ e`, rounded to the nearest double. -/
def decValue (neg : Bool) (intD fracD : Str) (e : Int) : JSNum :=
  let m0 : Int := (digitsVal intD : Int) * 10 ^ fracD.length + (digitsVal fracD : Int)
  let m1 : Int := if neg then -m0 else m0
  if 0 ≤ e then nearestDouble (m1 * 10 ^ e.toNat) fracD.length
  else nearestDouble m1 (fracD.length + (-e).toNat)

/-- `StrDecimalLiteral`: `[+-]?` then `Infinity`, or a decimal mantissa
(`digits`, `digits.digits?`, or `.digits`) with an optional exponent. -/
def parseDec (t : Str) : Option JSNum :=
  let (neg, r) := parseSign t
  if r = "Infinity".toList then some (.inf neg)
  else
    let (intD, r1) := spanP isDigitChar r
    match r1 with
    | '.' :: r2 =>
      let (fracD, r3) := spanP isDigitChar r2
      if intD = [] && fracD = [] then none
      else (parseExpAndEnd r3).map (decValue neg intD fracD)
    | _ =>
      if intD = [] then none
      else (parseExpAndEnd r1).map (decValue neg intD [])

/-- A `0x` / `0o` / `0b` integer literal body (no sign allowed). -/
def parseRadix (b : Nat) (rest : Str) : Option JSNum :=
  let (ds, rem) := spanP (isRadixDigit b) rest
  if ds = [] || rem ≠ [] then none
  else some (nearestDouble (radixVal b ds : Int) 0)

/-- `Number(string)` (the ECMAScript `StringToNumber` operation): trim,
empty means `0`, a radix prefix selects a base-2/8/16 literal, otherwise a
signed decimal literal; anything else is NaN (`none`). -/
def jsStringToNumber (s : Str) : Option JSNum :=
  let t := jsTrim s
  if t = [] then some jsZero
  else if t.take 2 = ['0', 'x'] || t.take 2 = ['0', 'X'] then parseRadix 16 (t.drop 2)
  else if t.take 2 = ['0', 'o'] || t.take 2 = ['0', 'O'] then parseRadix 8 (t.drop 2)
  else if t.take 2 = ['0', 'b'] || t.take 2 = ['0', 'B'] then parseRadix 2 (t.drop 2)
  else parseDec t

/-- Decimal digits of a natural number, with structural fuel (any fuel
above the digit count gives the same result; `natToDigits` supplies it). -/
def natToDigitsAux : Nat → Nat → Str
  | 0, _ => []
  | fuel + 1, n =>
    if n < 10 then [Char.ofNat (48 + n)]
    else natToDigitsAux fuel (n / 10) ++ [Char.ofNat (48 + n % 10)]

/-- Decimal digits of a natural number (the integer case of JavaScript
number-to-string). -/
def natToDigits (n : Nat) : Str := natToDigitsAux (n + 1) n

/-- String form of an integer. -/
def intToStr (i : Int) : Str :=
  if i < 0 then '-' :: natToDigits i.natAbs else natToDigits i.toNat

/-- JavaScript `ToString` on a number value: an integer prints as its
digits (`-0` cannot arise from `Int`), and a value `m / 10 ^ k` in lowest
decimal terms prints with `k` digits after the point.  (The exponential
forms JavaScript uses for very large or small magnitudes are not
modelled; the claims only reach small values.) -/
def jsNumToStr : JSNum → Str
  | .inf neg => (if neg then "-Infinity" else "Infinity").toList
  | .finite m k =>
    match normFix m k with
    | (m1, 0) => intToStr m1
    | (m1, k1) =>
      let ds := natToDigits m1.natAbs
      let ds := if ds.length ≤ k1 then List.replicate (k1 + 1 - ds.length) '0' ++ ds else ds
      (if m1 < 0 then ['-'] else []) ++
        ds.take (ds.length - k1) ++ '.' :: ds.drop (ds.length - k1)

/-- `current.replace(/^v/, '')`. -/
def stripLeadingV (s : Str) : Str :=
  match s with
  | 'v' :: rest => rest
  | _ => s

/-- `calcNextVersion` (bumper.js lines 32-58): strip a leading `v`, split
on `.`, convert each part with `Number`; throw (`none`) unless there are
exactly three parts and none is NaN; then the `switch` on the bump type
(an unknown bump type falls through, leaving the parts unchanged). -/
def calcNextVersion (current bumpType : Str) : Option Str :=
  let clean := stripLeadingV current
  match (splitOnChar '.' clean).map jsStringToNumber with
  | [some a, some b, some c] =>
    let parts :=
      if bumpType = "major".toList then (jsAddOne a, jsZero, jsZero)
      else if bumpType = "minor".toList then (a, jsAddOne b, jsZero)
      else if bumpType = "patch".toList then (a, b, jsAddOne c)
      else (a, b, c)
    some (jsNumToStr parts.1 ++ '.' :: jsNumToStr parts.2.1 ++ '.' :: jsNumToStr parts.2.2)
  | _ => none

/-- The acceptance condition of `calcNextVersion`: after stripping one
leading `v`, the string splits on `.` into exactly three components, each
of which `Number` accepts (is not NaN). -/
def jsVersionAccepted (current : Str) : Bool :=
  let parts := (splitOnChar '.' (stripLeadingV current)).map jsStringToNumber
  parts.length == 3 && parts.all (·.isSome)

/-- Modelled from the spec: `current` is "exactly three dot-separated
non-negative integers" after stripping one optional leading `v` — three
non-empty all-digit components. -/
def specThreeNonNegInts (current : Str) : Bool :=
  let parts := splitOnChar '.' (stripLeadingV current)
  parts.length == 3 && parts.all (fun p => !p.isEmpty && p.all isDigitChar)

/-- The result record of `bump`. -/
structure BumpResult where
  current : Str
  next : Str
  bumpType : Str
  commits : List Commit
deriving DecidableEq, Repr

/-- Pure core of `bump` (bumper.js lines 97-110): the git history
(`fetchCommitsSince(getLastTag())`), the manifest version and the `force`
flag are ambient inputs, modelled as parameters; `force || ...` treats an
empty string as absent; the `calcNextVersion` throw propagates (`none`). -/
def bump (rawCommits : List Str) (current : Str) (force : Option Str) :
    Option BumpResult :=
  let commits := parseCommits rawCommits
  let bumpType :=
    match force with
    | some f => if f = [] then determineBumpType commits else f
    | none => determineBumpType commits
  (calcNextVersion current bumpType).map (fun next => ⟨current, next, bumpType, commits⟩)

/-- A git command issued by the tagger, in issue order. -/
inductive GitCmd where
  | revParseTag (tag : Str)
  | tagCreate (tag : Str) (message : Str)
deriving DecidableEq, Repr

/-- `createTag` (tagger.js lines 323-337).  The repository's tag set is
modelled as the predicate `tags`; the returned trace lists the git
commands in the order they are issued (`tagExists` runs `git rev-parse`,
creation runs `git tag -a`).  `none` models the throw. -/
def createTag (tags : Str → Bool) (version message : Str) (dryRun : Bool) :
    Option Str × List GitCmd :=
  let tag := if version.head? = some 'v' then version else 'v' :: version
  if tags tag then (none, [GitCmd.revParseTag tag])
  else
    (some tag,
     GitCmd.revParseTag tag :: if dryRun then [] else [GitCmd.tagCreate tag message])

/-! ## Helper lemmas -/

/-- A greedy atom consumes an all-satisfying prefix up to the first
failing character. -/
theorem spanP_maximal_munch (p : Char → Bool) (xs : Str) (y : Char) (ys : Str)
    (hx : ∀ c ∈ xs, p c = true) (hy : p y = false) :
    spanP p (xs ++ y :: ys) = (xs, y :: ys) := by
  induction xs with
  | nil => simp [spanP, hy]
  | cons a as ih =>
    have ha : p a = true := hx a (by simp)
    have ih2 := ih (fun c hc => hx c (by simp [hc]))
    simp [spanP, ha, ih2]

/-- A subject `type(): description` with empty parentheses never matches
`COMMIT_PATTERN`: the scope capture `[^)]+` needs at least one character,
and the leftover `(` can match no later atom. -/
theorem matchCommitPattern_emptyScope (ty desc : Str) (hty : ty ≠ [])
    (hlow : ∀ c ∈ ty, isLowerAZ c = true) :
    matchCommitPattern (ty ++ '(' :: ')' :: ':' :: desc) = none := by
  unfold matchCommitPattern
  rw [spanP_maximal_munch isLowerAZ ty '(' (')' :: ':' :: desc) hlow (by decide)]
  simp [hty, spanP]

/-! ## C10 -/

/-- C10: a subject of the form `type():<description>` — parentheses
present but the scope between them empty — does not match the grammar, so
`parseCommit` classifies the commit as category `other` with the whole
trimmed subject as description and no scope. -/
theorem parseCommit_emptyScope_other (ty desc raw : Str) (hty : ty ≠ [])
    (hlow : ∀ c ∈ ty, isLowerAZ c = true)
    (hsub : subjectOf raw = ty ++ '(' :: ')' :: ':' :: desc) :
    matchCommitPattern (subjectOf raw) = none ∧
    parseCommit raw = some ⟨hashOf raw, "other".toList, none, subjectOf raw, bodyOf raw,
      false, subjectOf raw⟩ := by
  have hnm : matchCommitPattern (subjectOf raw) = none := by
    rw [hsub]; exact matchCommitPattern_emptyScope ty desc hty hlow
  have hne : subjectOf raw ≠ [] := by rw [hsub]; simp
  exact ⟨hnm, by simp [parseCommit, hne, hnm]⟩

/-- C10 witness: `feat(): add` parses to category `other`. -/
theorem parseCommit_emptyScope_witness :
    matchCommitPattern (subjectOf "abc\u0000feat(): add\u0000".toList) = none ∧
    parseCommit "abc\u0000feat(): add\u0000".toList
      = some ⟨"abc".toList, "other".toList, none, "feat(): add".toList, [],
              false, "feat(): add".toList⟩ := by
  have h := parseCommit_emptyScope_other "feat".toList " add".toList
    "abc\u0000feat(): add\u0000".toList (by decide) (by decide) (by decide)
  exact ⟨h.1, by rw [h.2]; decide⟩

/-! ## C1 -/

/-- C1 counterexample: a record whose trimmed subject is non-empty but
ungrammatical, and whose body contains `BREAKING CHANGE:`, still parses
with `isBreaking = false` — the body override is not applied on the
no-match path (parser.js lines 240-249). -/
theorem parseCommit_bodyOverride_counterexample :
    subjectOf "abc\u0000just a message\u0000BREAKING CHANGE: removed".toList ≠ [] ∧
    matchCommitPattern
        (subjectOf "abc\u0000just a message\u0000BREAKING CHANGE: removed".toList)
      = none ∧
    breakingBodyTest (bodyOf "abc\u0000just a message\u0000BREAKING CHANGE: removed".toList)
      = true ∧
    (parseCommit "abc\u0000just a message\u0000BREAKING CHANGE: removed".toList).map
        (·.breaking)
      = some false := by decide

/-- C1 (amended): the breaking-change body override applies only when the
subject matches the grammar.  For a non-empty subject that does not match,
`parseCommit` always returns `isBreaking = false`, whatever the body; when
the subject matches, `isBreaking` is the subject marker OR the body
test. -/
theorem parseCommit_breaking_grammar_only (raw : Str) (hne : subjectOf raw ≠ []) :
    (matchCommitPattern (subjectOf raw) = none →
      (parseCommit raw).map (·.breaking) = some false) ∧
    (∀ m, matchCommitPattern (subjectOf raw) = some m →
      (parseCommit raw).map (·.breaking)
        = some (m.bang || breakingBodyTest (bodyOf raw))) := by
  constructor
  · intro hnm; simp [parseCommit, hne, hnm]
  · intro m hm; simp [parseCommit, hne, hm]

/-- C1 witness: the amended theorem applied to a concrete ungrammatical
record with a breaking body. -/
theorem parseCommit_breaking_grammar_only_witness :
    (parseCommit "abc\u0000just a message\u0000BREAKING CHANGE: removed".toList).map
        (·.breaking)
      = some false :=
  (parseCommit_breaking_grammar_only
      "abc\u0000just a message\u0000BREAKING CHANGE: removed".toList (by decide)).1
    (by decide)

/-! ## C2 -/

/-- C2: the bump policy — `major` if any commit is breaking, else `minor`
if any commit has category `feat`, else `patch` (including the empty
list); and a non-empty `force` override passed to `bump` becomes the
resulting bump type verbatim. -/
theorem determineBump_and_force_spec :
    (∀ cs : List Commit, (∃ c ∈ cs, c.breaking = true) →
       determineBumpType cs = "major".toList) ∧
    (∀ cs : List Commit, (∀ c ∈ cs, c.breaking = false) →
       (∃ c ∈ cs, c.type = "feat".toList) → determineBumpType cs = "minor".toList) ∧
    (∀ cs : List Commit, (∀ c ∈ cs, c.breaking = false ∧ c.type ≠ "feat".toList) →
       determineBumpType cs = "patch".toList) ∧
    determineBumpType [] = "patch".toList ∧
    (∀ rawCommits current f r, f ≠ [] →
       bump rawCommits current (some f) = some r → r.bumpType = f) := by
  refine ⟨?_, ?_, ?_, by decide, ?_⟩
  · rintro cs ⟨c, hc, hb⟩
    have h : hasBreakingChanges cs = true := by
      simp only [hasBreakingChanges, List.any_eq_true]
      exact ⟨c, hc, hb⟩
    simp [determineBumpType, h]
  · rintro cs hnb ⟨c, hc, ht⟩
    have h : hasBreakingChanges cs = false := by
      simp only [hasBreakingChanges, List.any_eq_false]
      intro a ha; simp [hnb a ha]
    have h2 : cs.any (fun c => c.type == "feat".toList) = true := by
      simp only [List.any_eq_true, beq_iff_eq]
      exact ⟨c, hc, ht⟩
    simp only [determineBumpType, h, h2]
    rfl
  · intro cs hall
    have h : hasBreakingChanges cs = false := by
      simp only [hasBreakingChanges, List.any_eq_false]
      intro a ha; simp [(hall a ha).1]
    have h2 : cs.any (fun c => c.type == "feat".toList) = false := by
      simp only [List.any_eq_false, beq_iff_eq]
      intro a ha; exact (hall a ha).2
    simp only [determineBumpType, h, h2]
    rfl
  · intro rawCommits current f r hf hr
    simp only [bump, if_neg hf] at hr
    rw [Option.map_eq_some'] at hr
    obtain ⟨next, -, hr2⟩ := hr
    rw [← hr2]

/-- C2 witness: the policy and the override at concrete inputs. -/
theorem determineBump_and_force_witness :
    determineBumpType [⟨[], "feat".toList, none, [], [], true, []⟩] = "major".toList ∧
    BumpResult.bumpType ⟨"1.2.3".toList, "1.2.4".toList, "patch".toList, []⟩
      = "patch".toList :=
  ⟨determineBump_and_force_spec.1 _
     ⟨⟨[], "feat".toList, none, [], [], true, []⟩, by simp, rfl⟩,
   determineBump_and_force_spec.2.2.2.2 [] "1.2.3".toList _ _ (by decide) (by decide)⟩

/-! ## C8 -/

/-- C8 counterexample: for `version = "v1.0.0"` the requested tag is the
version itself, not `'v' + version`; with `"vv1.0.0"` present in the tag
set, `createTag` raises no error. -/
theorem createTag_vPrefix_counterexample :
    (fun t => t == "vv1.0.0".toList) ("vv1.0.0".toList) = true ∧
    (createTag (fun t => t == "vv1.0.0".toList) "v1.0.0".toList "msg".toList false).1
      = some "v1.0.0".toList := by decide

/-- C8 (amended): the requested tag is the version itself when it already
starts with `v`, else `'v' + version`.  If that tag exists, `createTag`
errors having issued only the existence query (also under dry-run); if
not, it returns the tag name, and the creation command is issued after the
query unless dry-run. -/
theorem createTag_exists_check (tags : Str → Bool) (version message : Str)
    (dryRun : Bool) :
    (tags (if version.head? = some 'v' then version else 'v' :: version) = true →
      createTag tags version message dryRun
        = (none, [GitCmd.revParseTag
            (if version.head? = some 'v' then version else 'v' :: version)])) ∧
    (tags (if version.head? = some 'v' then version else 'v' :: version) = false →
      createTag tags version message dryRun
        = (some (if version.head? = some 'v' then version else 'v' :: version),
           GitCmd.revParseTag (if version.head? = some 'v' then version else 'v' :: version)
             :: if dryRun then []
                else [GitCmd.tagCreate
                       (if version.head? = some 'v' then version else 'v' :: version)
                       message])) := by
  constructor
  · intro h; simp [createTag, h]
  · intro h; simp [createTag, h]

/-- C8 witness: existing tag under dry-run still errors with only the
query issued; absent tag creates after the query. -/
theorem createTag_exists_check_witness :
    createTag (fun t => t == "v1.0.0".toList) "1.0.0".toList "msg".toList true
      = (none, [GitCmd.revParseTag "v1.0.0".toList]) ∧
    createTag (fun _ => false) "1.0.0".toList "msg".toList false
      = (some "v1.0.0".toList,
         [GitCmd.revParseTag "v1.0.0".toList,
          GitCmd.tagCreate "v1.0.0".toList "msg".toList]) :=
  ⟨(createTag_exists_check (fun t => t == "v1.0.0".toList) "1.0.0".toList "msg".toList
      true).1 (by decide),
   (createTag_exists_check (fun _ => false) "1.0.0".toList "msg".toList false).2 (by decide)⟩

/-! ## C9 -/

/-- C9: `generateChangelog` is a pure function of version, commits,
last tag and the current date; two calls with identical arguments and the
same calendar day (equal date strings) produce identical output. -/
theorem generateChangelog_deterministic (version : Str) (commits : List Commit)
    (lastTag : Option Str) (d1 d2 : Str) (h : d1 = d2) :
    generateChangelog version commits lastTag d1
      = generateChangelog version commits lastTag d2 := by rw [h]

/-- C9 witness: determinism at a concrete input. -/
theorem generateChangelog_deterministic_witness :
    generateChangelog "1.0.0".toList [] none "2026-10-11".toList
      = generateChangelog "1.0.0".toList [] none "2026-10-11".toList :=
  generateChangelog_deterministic "1.0.0".toList [] none "2026-10-11".toList
    "2026-10-11".toList rfl

/-! ## Number and version lemmas (C3, C5) -/
theorem dropWhile_all_false (p : Char → Bool) (s : Str)
    (h : ∀ c ∈ s, p c = false) : s.dropWhile p = s := by
  cases s with
  | nil => rfl
  | cons a as => simp [List.dropWhile, h a (by simp)]

theorem jsTrim_eq_self (s : Str) (h : ∀ c ∈ s, isJsWs c = false) : jsTrim s = s := by
  unfold jsTrim
  rw [dropWhile_all_false _ _ h, dropWhile_all_false, List.reverse_reverse]
  intro c hc
  exact h c (by simpa using hc)

theorem spanP_all (p : Char → Bool) (s : Str) (h : ∀ c ∈ s, p c = true) :
    spanP p s = (s, []) := by
  induction s with
  | nil => rfl
  | cons a as ih => simp [spanP, h a (by simp), ih (fun c hc => h c (by simp [hc]))]

theorem digit_ne (c x : Char) (hc : isDigitChar c = true) (hx : isDigitChar x = false) :
    c ≠ x := by
  intro h; rw [h, hx] at hc; exact Bool.false_ne_true hc

theorem digit_not_ws (c : Char) (hc : isDigitChar c = true) : isJsWs c = false := by
  by_contra hw
  rw [Bool.not_eq_false] at hw
  unfold isJsWs at hw
  simp only [Bool.or_eq_true, decide_eq_true_eq] at hw
  rcases hw with (((((((((h|h)|h)|h)|h)|h)|h)|h)|h)|h) <;> (subst h; exact absurd hc (by decide))

theorem parseSign_nosign (c : Char) (cs : Str) (h1 : c ≠ '+') (h2 : c ≠ '-') :
    parseSign (c :: cs) = (false, c :: cs) := by
  rw [parseSign.eq_def]
  split
  · rename_i heq; rw [List.cons.injEq] at heq; exact absurd heq.1 h1
  · rename_i heq; rw [List.cons.injEq] at heq; exact absurd heq.1 h2
  · rfl

/-- Integers of magnitude at most `2 ^ 53` are exactly representable, so
rounding returns them unchanged. -/
theorem nearestDouble_small (m : Int) (h : m.natAbs ≤ 2 ^ 53) :
    nearestDouble m 0 = .finite m 0 := by
  unfold nearestDouble
  by_cases hz : m = 0
  · rw [if_pos hz, hz]
  · have h2 : m.natAbs ≤ 9007199254740992 :=
      le_trans h (by norm_num)
    rw [if_neg hz, if_pos (by simp [h2])]

theorem decValue_digits (d : Str) :
    decValue false d [] 0 = nearestDouble (digitsVal d : Int) 0 := by
  unfold decValue
  simp [digitsVal]

theorem parseDec_digits (d : Str) (hne : d ≠ [])
    (hd : ∀ c ∈ d, isDigitChar c = true) :
    parseDec d = some (nearestDouble (digitsVal d : Int) 0) := by
  obtain ⟨a, as, rfl⟩ : ∃ a as, d = a :: as := by
    cases d with
    | nil => exact absurd rfl hne
    | cons a as => exact ⟨a, as, rfl⟩
  have ha := hd a (by simp)
  have hInf : ¬ (a :: as = "Infinity".toList) := by
    intro h
    rw [show ("Infinity".toList : Str) = 'I' :: "nfinity".toList from rfl,
        List.cons.injEq] at h
    exact digit_ne a 'I' ha (by decide) h.1
  have hspan := spanP_all isDigitChar (a :: as) hd
  unfold parseDec
  rw [parseSign_nosign a as (digit_ne a '+' ha (by decide)) (digit_ne a '-' ha (by decide))]
  simp only [hspan, if_neg hInf]
  simp [parseExpAndEnd, decValue_digits]

theorem digits_take2_ne (d : Str) (hd : ∀ c ∈ d, isDigitChar c = true)
    (x : Char) (hx : isDigitChar x = false) : d.take 2 ≠ ['0', x] := by
  intro h
  match d, h with
  | a :: b :: r, h =>
    rw [show (a :: b :: r).take 2 = [a, b] from rfl, List.cons.injEq, List.cons.injEq] at h
    exact digit_ne b x (hd b (by simp)) hx h.2.1

theorem jsStringToNumber_digits (d : Str) (hne : d ≠ [])
    (hd : ∀ c ∈ d, isDigitChar c = true) :
    jsStringToNumber d = some (nearestDouble (digitsVal d : Int) 0) := by
  have htrim : jsTrim d = d := jsTrim_eq_self d (fun c hc => digit_not_ws c (hd c hc))
  unfold jsStringToNumber
  simp only [htrim, if_neg hne,
    digits_take2_ne d hd 'x' (by decide), digits_take2_ne d hd 'X' (by decide),
    digits_take2_ne d hd 'o' (by decide), digits_take2_ne d hd 'O' (by decide),
    digits_take2_ne d hd 'b' (by decide), digits_take2_ne d hd 'B' (by decide)]
  simp only [decide_eq_false, Bool.or_self, Bool.false_eq_true, if_false]
  exact parseDec_digits d hne hd

theorem splitOnChar_no_sep (sep : Char) (xs : Str) (hx : sep ∉ xs) :
    splitOnChar sep xs = [xs] := by
  induction xs with
  | nil => rfl
  | cons a as ih =>
    have ha : ¬ a = sep := fun h => hx (by simp [h])
    have := ih (fun h => hx (by simp [h]))
    simp only [splitOnChar, this, if_neg ha]

theorem splitOnChar_ne_nil (sep : Char) (xs : Str) : splitOnChar sep xs ≠ [] := by
  cases xs with
  | nil => simp [splitOnChar]
  | cons a as =>
    unfold splitOnChar
    split <;> split <;> simp

theorem splitOnChar_append (sep : Char) (xs ys : Str) (hx : sep ∉ xs) :
    splitOnChar sep (xs ++ sep :: ys) = xs :: splitOnChar sep ys := by
  induction xs with
  | nil =>
    simp only [List.nil_append, splitOnChar]
    rcases h : splitOnChar sep ys with _ | ⟨r, rs⟩
    · exact absurd h (splitOnChar_ne_nil sep ys)
    · simp
  | cons a as ih =>
    have ha : ¬ a = sep := fun h => hx (by simp [h])
    have ih2 := ih (fun h => hx (by simp [h]))
    simp only [List.cons_append, splitOnChar, List.append_eq, ih2, if_neg ha]

theorem natToDigitsAux_spec (fuel : Nat) : ∀ n, n < fuel →
    natToDigitsAux fuel n ≠ [] ∧
    (∀ c ∈ natToDigitsAux fuel n, isDigitChar c = true) ∧
    digitsVal (natToDigitsAux fuel n) = n := by
  induction fuel with
  | zero => intro n h; omega
  | succ fuel ih =>
    intro n h
    by_cases h10 : n < 10
    · refine ⟨by simp [natToDigitsAux, h10], ?_, ?_⟩
      · intro c hc
        simp only [natToDigitsAux, if_pos h10, List.mem_singleton] at hc
        subst hc
        interval_cases n <;> decide
      · simp only [natToDigitsAux, if_pos h10, digitsVal, List.foldl_cons, List.foldl_nil]
        interval_cases n <;> decide
    · have hdiv : n / 10 < fuel := by
        have := Nat.div_lt_self (by omega : 0 < n) (by omega : 1 < 10)
        omega
      obtain ⟨hne, hall, hval⟩ := ih (n / 10) hdiv
      have hmod : n % 10 < 10 := Nat.mod_lt n (by omega)
      refine ⟨by simp [natToDigitsAux, h10], ?_, ?_⟩
      · intro c hc
        simp only [natToDigitsAux, if_neg h10, List.mem_append, List.mem_singleton] at hc
        rcases hc with hc | hc
        · exact hall c hc
        · subst hc
          have := hmod
          interval_cases h : (n % 10) <;> decide
      · simp only [natToDigitsAux, if_neg h10, digitsVal, List.foldl_append,
          List.foldl_cons, List.foldl_nil]
        have hdig : digitVal (Char.ofNat (48 + n % 10)) = n % 10 := by
          have := hmod
          interval_cases h : (n % 10) <;> decide
        rw [show List.foldl (fun a c => 10 * a + digitVal c) 0 (natToDigitsAux fuel (n/10))
              = digitsVal (natToDigitsAux fuel (n/10)) from rfl, hval, hdig]
        omega

theorem natToDigits_spec (n : Nat) :
    natToDigits n ≠ [] ∧ (∀ c ∈ natToDigits n, isDigitChar c = true) ∧
    digitsVal (natToDigits n) = n :=
  natToDigitsAux_spec (n + 1) n (by omega)

theorem stripLeadingV_cons_ne (x : Char) (xs : Str) (h : x ≠ 'v') :
    stripLeadingV (x :: xs) = x :: xs := by
  rw [stripLeadingV.eq_def]
  split
  · rename_i heq; rw [List.cons.injEq] at heq; exact absurd heq.1 h
  · rfl

theorem jsNumToStr_natFinite (n : Nat) : jsNumToStr (.finite (n : Int) 0) = natToDigits n := by
  show intToStr (n : Int) = natToDigits n
  unfold intToStr
  rw [if_neg (by omega), Int.toNat_natCast]

/-- Incrementing is exact while the successor stays within the 53-bit
safe-integer range. -/
theorem jsAddOne_natFinite (n : Nat) (h : n + 1 ≤ 2 ^ 53) :
    jsAddOne (.finite (n : Int) 0) = .finite ((n + 1 : Nat) : Int) 0 := by
  show nearestDouble ((n : Int) + 10 ^ (0 : Nat)) 0 = JSNum.finite ((n + 1 : Nat) : Int) 0
  rw [show ((n : Int) + 10 ^ (0 : Nat)) = ((n + 1 : Nat) : Int) by push_cast; ring]
  exact nearestDouble_small _ (by rw [Int.natAbs_ofNat]; exact h)

theorem jsNumToStr_natSuccFinite (n : Nat) :
    jsNumToStr (.finite ((n : Int) + 1) 0) = natToDigits (n + 1) := by
  rw [show ((n : Int) + 1) = ((n + 1 : Nat) : Int) by push_cast; ring]
  exact jsNumToStr_natFinite (n + 1)

theorem calcNextVersion_digits_core (a b c : Nat)
    (ha : a < 2 ^ 53) (hb : b < 2 ^ 53) (hc : c < 2 ^ 53) (v : Bool) (k : Str) :
    calcNextVersion ((if v then ['v'] else []) ++
        natToDigits a ++ '.' :: natToDigits b ++ '.' :: natToDigits c) k
      = some (if k = "major".toList then natToDigits (a+1) ++ '.' :: '0' :: '.' :: ['0']
              else if k = "minor".toList then
                natToDigits a ++ '.' :: natToDigits (b+1) ++ '.' :: ['0']
              else if k = "patch".toList then
                natToDigits a ++ '.' :: natToDigits b ++ '.' :: natToDigits (c+1)
              else natToDigits a ++ '.' :: natToDigits b ++ '.' :: natToDigits c) := by
  obtain ⟨hneA, hallA, hvalA⟩ := natToDigits_spec a
  obtain ⟨hneB, hallB, hvalB⟩ := natToDigits_spec b
  obtain ⟨hneC, hallC, hvalC⟩ := natToDigits_spec c
  have hstrip : stripLeadingV ((if v then ['v'] else []) ++
      natToDigits a ++ '.' :: natToDigits b ++ '.' :: natToDigits c)
      = natToDigits a ++ '.' :: natToDigits b ++ '.' :: natToDigits c := by
    cases v with
    | true => rfl
    | false =>
      simp only [if_neg (Bool.false_ne_true), List.nil_append]
      rcases h : natToDigits a with _ | ⟨d, ds⟩
      · exact absurd h hneA
      · rw [List.cons_append]
        exact stripLeadingV_cons_ne d _
          (digit_ne d 'v' (hallA d (by rw [h]; simp)) (by decide))
  have hsplit : splitOnChar '.' (natToDigits a ++ '.' :: natToDigits b ++ '.' :: natToDigits c)
      = [natToDigits a, natToDigits b, natToDigits c] := by
    have hA : '.' ∉ natToDigits a := fun hm => absurd (hallA '.' hm) (by decide)
    have hB : '.' ∉ natToDigits b := fun hm => absurd (hallB '.' hm) (by decide)
    have hC : '.' ∉ natToDigits c := fun hm => absurd (hallC '.' hm) (by decide)
    rw [show (natToDigits a ++ '.' :: natToDigits b ++ '.' :: natToDigits c : Str)
          = natToDigits a ++ '.' :: (natToDigits b ++ '.' :: natToDigits c) from by simp,
        splitOnChar_append '.' _ _ hA, splitOnChar_append '.' _ _ hB,
        splitOnChar_no_sep '.' _ hC]
  have hsA : nearestDouble (a : Int) 0 = .finite (a : Int) 0 :=
    nearestDouble_small _ (by rw [Int.natAbs_ofNat]; omega)
  have hsB : nearestDouble (b : Int) 0 = .finite (b : Int) 0 :=
    nearestDouble_small _ (by rw [Int.natAbs_ofNat]; omega)
  have hsC : nearestDouble (c : Int) 0 = .finite (c : Int) 0 :=
    nearestDouble_small _ (by rw [Int.natAbs_ofNat]; omega)
  have haddA : jsAddOne (.finite (a : Int) 0) = .finite ((a + 1 : Nat) : Int) 0 :=
    jsAddOne_natFinite a (by omega)
  have haddB : jsAddOne (.finite (b : Int) 0) = .finite ((b + 1 : Nat) : Int) 0 :=
    jsAddOne_natFinite b (by omega)
  have haddC : jsAddOne (.finite (c : Int) 0) = .finite ((c + 1 : Nat) : Int) 0 :=
    jsAddOne_natFinite c (by omega)
  unfold calcNextVersion
  simp only [hstrip, hsplit, List.map_cons, List.map_nil,
    jsStringToNumber_digits _ hneA hallA, jsStringToNumber_digits _ hneB hallB,
    jsStringToNumber_digits _ hneC hallC, hvalA, hvalB, hvalC, hsA, hsB, hsC]
  have hz : jsNumToStr jsZero = ['0'] := by decide
  by_cases hmaj : k = "major".toList
  · simp [hmaj, haddA, haddB, haddC, jsNumToStr_natFinite, jsNumToStr_natSuccFinite, hz]
  · by_cases hmin : k = "minor".toList
    · simp [hmaj, hmin, haddA, haddB, haddC, jsNumToStr_natFinite,
        jsNumToStr_natSuccFinite, hz]
    · by_cases hpat : k = "patch".toList
      · simp [hmaj, hmin, hpat, haddA, haddB, haddC, jsNumToStr_natFinite,
          jsNumToStr_natSuccFinite, hz]
      · have h1 : ¬ k = ['m', 'a', 'j', 'o', 'r'] := by simpa using hmaj
        have h2 : ¬ k = ['m', 'i', 'n', 'o', 'r'] := by simpa using hmin
        have h3 : ¬ k = ['p', 'a', 't', 'c', 'h'] := by simpa using hpat
        simp [h1, h2, h3, jsNumToStr_natFinite, hz]

theorem head_ne_v_append (n : Nat) (rest : Str) :
    (natToDigits n ++ rest).head? ≠ some 'v' := by
  obtain ⟨hne, hall, -⟩ := natToDigits_spec n
  intro hh
  cases hnd : natToDigits n with
  | nil => exact absurd hnd hne
  | cons d ds =>
    rw [hnd, List.cons_append, List.head?_cons, Option.some.injEq] at hh
    exact digit_ne d 'v' (hall d (by rw [hnd]; simp)) (by decide) hh

/-- C5 (amended): for every canonical version string `M.m.p` of three
decimal numerals below the 53-bit safe-integer bound `2 ^ 53`, optionally
prefixed with `v`: a major bump increments the major component and zeroes
the others, a minor bump increments minor and zeroes patch, a patch bump
increments only patch; and for every bump kind the output never carries a
leading `v`.  (At and above `2 ^ 53` double arithmetic loses increments —
see the counterexample.) -/
theorem calcNextVersion_bump_spec (a b c : Nat)
    (ha : a < 2 ^ 53) (hb : b < 2 ^ 53) (hc : c < 2 ^ 53) (v : Bool) :
    calcNextVersion ((if v then ['v'] else []) ++
        natToDigits a ++ '.' :: natToDigits b ++ '.' :: natToDigits c) "major".toList
      = some (natToDigits (a + 1) ++ '.' :: '0' :: '.' :: ['0']) ∧
    calcNextVersion ((if v then ['v'] else []) ++
        natToDigits a ++ '.' :: natToDigits b ++ '.' :: natToDigits c) "minor".toList
      = some (natToDigits a ++ '.' :: natToDigits (b + 1) ++ '.' :: ['0']) ∧
    calcNextVersion ((if v then ['v'] else []) ++
        natToDigits a ++ '.' :: natToDigits b ++ '.' :: natToDigits c) "patch".toList
      = some (natToDigits a ++ '.' :: natToDigits b ++ '.' :: natToDigits (c + 1)) ∧
    (∀ k r, calcNextVersion ((if v then ['v'] else []) ++
        natToDigits a ++ '.' :: natToDigits b ++ '.' :: natToDigits c) k = some r →
      r.head? ≠ some 'v') := by
  refine ⟨?_, ?_, ?_, ?_⟩
  · rw [calcNextVersion_digits_core a b c ha hb hc]; simp
  · rw [calcNextVersion_digits_core a b c ha hb hc]
    rw [if_neg (by decide), if_pos rfl]
  · rw [calcNextVersion_digits_core a b c ha hb hc]
    rw [if_neg (by decide), if_neg (by decide), if_pos rfl]
  · intro k r hr
    rw [calcNextVersion_digits_core a b c ha hb hc, Option.some.injEq] at hr
    subst hr
    split_ifs <;>
      first
      | exact head_ne_v_append _ _
      | (rw [List.append_assoc]; exact head_ne_v_append _ _)

/-- C5 witness: `next("1.2.3", patch) = "1.2.4"` via the general theorem. -/
theorem calcNextVersion_bump_witness :
    calcNextVersion "1.2.3".toList "patch".toList = some "1.2.4".toList ∧
    ¬ ("1.2.4".toList : Str).head? = some 'v' :=
  ⟨(calcNextVersion_bump_spec 1 2 3 (by decide) (by decide) (by decide) false).2.2.1,
   (calcNextVersion_bump_spec 1 2 3 (by decide) (by decide) (by decide) false).2.2.2
     "patch".toList "1.2.4".toList (by decide)⟩

set_option maxRecDepth 8192 in
/-- C5 counterexample: at the safe-integer boundary the increment is lost.
`Number("9007199254740992")` is exactly `2 ^ 53`, and adding `1` rounds the
exact sum `2 ^ 53 + 1` back down to `2 ^ 53` (it is a tie and the even
significand wins), so a patch bump of `1.2.9007199254740992` returns the
version unchanged instead of incrementing the patch component as the claim
asserts for every non-negative integer. -/
theorem calcNextVersion_bump_counterexample :
    calcNextVersion "1.2.9007199254740992".toList "patch".toList
      = some "1.2.9007199254740992".toList ∧
    calcNextVersion "1.2.9007199254740992".toList "patch".toList
      ≠ some "1.2.9007199254740993".toList := by
  constructor
  · decide
  · decide

theorem calcNextVersion_none_iff (current k : Str) :
    calcNextVersion current k = none ↔ jsVersionAccepted current = false := by
  unfold calcNextVersion jsVersionAccepted
  rcases hl : (splitOnChar '.' (stripLeadingV current)).map jsStringToNumber
    with _ | ⟨a, _ | ⟨b, _ | ⟨c, _ | ⟨d, rest⟩⟩⟩⟩
  · simp [hl]
  · rcases a with _ | va <;> simp [hl]
  · rcases a with _ | va <;> rcases b with _ | vb <;> simp [hl]
  · rcases a with _ | va <;> rcases b with _ | vb <;> rcases c with _ | vc <;> simp [hl]
  · rcases a with _ | va <;> rcases b with _ | vb <;> rcases c with _ | vc <;> simp [hl]

theorem specThree_accepted (current : Str)
    (h : specThreeNonNegInts current = true) : jsVersionAccepted current = true := by
  unfold specThreeNonNegInts at h
  rw [Bool.and_eq_true, List.all_eq_true] at h
  obtain ⟨hlen, hall⟩ := h
  unfold jsVersionAccepted
  rw [Bool.and_eq_true, List.all_eq_true]
  constructor
  · rw [List.length_map]; exact hlen
  · intro x hx
    rw [List.mem_map] at hx
    obtain ⟨p, hp, rfl⟩ := hx
    obtain ⟨hpne, hpdig⟩ := Bool.and_eq_true _ _ |>.mp (hall p hp)
    rw [jsStringToNumber_digits p (by simpa using hpne) (fun c hc => by
      rw [List.all_eq_true] at hpdig; exact hpdig c hc)]
    rfl

/-- C3 (amended): `calcNextVersion` fails exactly when, after stripping
one leading `v`, the input does not split on `.` into three components
each accepted by JavaScript `Number` (non-NaN).  Every string of three
dot-separated decimal numerals is accepted, and `next("1.2", patch)` and
`next("1.2.x", patch)` fail — but the accepted set is strictly larger than
the spec's "three non-negative integers" (see the counterexample). -/
theorem calcNextVersion_error_spec :
    (∀ current k, calcNextVersion current k = none ↔ jsVersionAccepted current = false) ∧
    (∀ current, specThreeNonNegInts current = true → jsVersionAccepted current = true) ∧
    calcNextVersion "1.2".toList "patch".toList = none ∧
    calcNextVersion "1.2.x".toList "patch".toList = none :=
  ⟨calcNextVersion_none_iff, specThree_accepted, by decide, by decide⟩

/-- C3 witness: a failing and an accepted input via the general theorem. -/
theorem calcNextVersion_error_spec_witness :
    calcNextVersion "1.2".toList "patch".toList = none ∧
    jsVersionAccepted "1.2.3".toList = true :=
  ⟨(calcNextVersion_error_spec.1 "1.2".toList "patch".toList).mpr (by decide),
   calcNextVersion_error_spec.2.1 "1.2.3".toList (by decide)⟩

/-- C3 counterexample: `"1..2"` is not three dot-separated non-negative
integers, yet `calcNextVersion` accepts it (`Number("") = 0`) and returns
`"1.0.3"` for a patch bump rather than failing. -/
theorem calcNextVersion_shape_counterexample :
    specThreeNonNegInts "1..2".toList = false ∧
    calcNextVersion "1..2".toList "patch".toList = some "1.0.3".toList := by decide

/-! ## Parser totality (C6) -/

theorem parseCommit_some_iff (raw : Str) :
    (parseCommit raw).isSome ↔ subjectOf raw ≠ [] := by
  unfold parseCommit
  by_cases h : subjectOf raw = []
  · simp [h]
  · simp only [h, if_neg h]
    cases matchCommitPattern (subjectOf raw) <;> simp [h]

theorem matchAfterScope_type (ty : Str) (sc : Option Str) (r : Str) (m : CommitMatch)
    (h : matchAfterScope ty sc r = some m) : m.type = ty := by
  unfold matchAfterScope at h
  split at h <;>
    (simp only [] at h
     split at h
     · rw [Option.map_eq_some'] at h
       obtain ⟨d, -, hm⟩ := h
       rw [← hm]
     · exact absurd h (by simp))

theorem matchCommitPattern_type (s : Str) (m : CommitMatch)
    (h : matchCommitPattern s = some m) : m.type ≠ [] := by
  unfold matchCommitPattern at h
  rcases hsp : spanP isLowerAZ s with ⟨ty, r1⟩
  rw [hsp] at h
  simp only [] at h
  split at h
  · exact absurd h (by simp)
  · rename_i hty
    split at h
    · split at h
      · split at h
        · exact absurd h (by simp)
        · rw [matchAfterScope_type _ _ _ _ h]; exact hty
      · exact absurd h (by simp)
    · rw [matchAfterScope_type _ _ _ _ h]; exact hty

theorem parseCommit_type_spec (raw : Str) (cmt : Commit)
    (h : parseCommit raw = some cmt) :
    cmt.type ≠ [] ∧
    (matchCommitPattern (subjectOf raw) = none → cmt.type = "other".toList) := by
  unfold parseCommit at h
  by_cases hs : subjectOf raw = []
  · rw [if_pos hs] at h; exact absurd h (by simp)
  · rw [if_neg hs] at h
    rcases hm : matchCommitPattern (subjectOf raw) with _ | m
    · rw [hm] at h
      rw [Option.some.injEq] at h
      subst h
      exact ⟨by simp, fun _ => rfl⟩
    · rw [hm] at h
      rw [Option.some.injEq] at h
      subst h
      refine ⟨?_, fun hc => absurd hc (by simp)⟩
      simp only [ne_eq, List.map_eq_nil_iff]
      exact matchCommitPattern_type _ _ hm

theorem parseCommits_eq_filterMap (raws : List Str) :
    parseCommits raws = raws.filterMap parseCommit := by
  unfold parseCommits
  rw [List.filterMap_map]
  simp

theorem parseCommits_length (raws : List Str) :
    (parseCommits raws).length
      = (raws.filter (fun r => !(subjectOf r).isEmpty)).length := by
  induction raws with
  | nil => rfl
  | cons r rs ih =>
    rw [parseCommits_eq_filterMap] at ih ⊢
    by_cases h : subjectOf r = []
    · have hnone : parseCommit r = none := by
        rcases hc : parseCommit r with _ | c
        · rfl
        · have := (parseCommit_some_iff r).mp (by simp [hc])
          exact absurd h this
      simp [List.filterMap_cons, hnone, List.filter_cons, h, ih]
    · obtain ⟨c, hc⟩ := Option.isSome_iff_exists.mp ((parseCommit_some_iff r).mpr h)
      simp [List.filterMap_cons, hc, List.filter_cons, h, ih]

/-- C6: `parseCommit` returns a classification iff the record's trimmed
subject is non-empty; `parseCommits` drops exactly the empty-subject
records (the lengths agree with the non-empty filter); and the returned
category is always defined — non-empty, equal to `other` whenever the
subject does not match the grammar.  (In the embedding `parseCommit` is a
total function; no exception path exists.) -/
theorem parseCommit_total_spec :
    (∀ raw, (parseCommit raw).isSome ↔ subjectOf raw ≠ []) ∧
    (∀ raw cmt, parseCommit raw = some cmt → cmt.type ≠ [] ∧
      (matchCommitPattern (subjectOf raw) = none → cmt.type = "other".toList)) ∧
    (∀ raws, parseCommits raws = raws.filterMap parseCommit) ∧
    (∀ raws, (parseCommits raws).length
        = (raws.filter (fun r => !(subjectOf r).isEmpty)).length) :=
  ⟨parseCommit_some_iff, parseCommit_type_spec, parseCommits_eq_filterMap,
   parseCommits_length⟩

/-- C6 witness: concrete records exercising every part of the theorem. -/
theorem parseCommit_total_witness :
    (parseCommit "h\u0000plain text\u0000".toList).isSome ∧
    Commit.type ⟨['h'], "other".toList, none, "plain text".toList, [], false,
      "plain text".toList⟩ = "other".toList ∧
    (parseCommits ["h\u0000plain text\u0000".toList, "x\u0000\u0000body".toList]).length = 1 :=
  ⟨(parseCommit_total_spec.1 "h\u0000plain text\u0000".toList).mpr (by decide),
   (parseCommit_total_spec.2.1 "h\u0000plain text\u0000".toList _ (by decide)).2 (by decide),
   by rw [parseCommit_total_spec.2.2.2]; decide⟩

/-! ## Grouping and ordering (C7) -/

theorem groupKeys_mem (commits : List Commit) (k : Str) :
    k ∈ groupKeys commits ↔ ∃ c ∈ commits, normType c.type = k := by
  suffices h : ∀ (cs : List Commit) (acc : List Str),
      (k ∈ cs.foldl (fun ks c =>
          let k' := normType c.type
          if k' ∈ ks then ks else ks ++ [k']) acc
        ↔ k ∈ acc ∨ ∃ c ∈ cs, normType c.type = k) by
    simpa [groupKeys] using h commits []
  intro cs
  induction cs with
  | nil => intro acc; simp
  | cons c cs ih =>
    intro acc
    rw [List.foldl_cons]
    by_cases hmem : normType c.type ∈ acc
    · simp only [if_pos hmem, ih, List.mem_cons]
      constructor
      · rintro (h | ⟨d, hd, he⟩)
        · exact Or.inl h
        · exact Or.inr ⟨d, Or.inr hd, he⟩
      · rintro (h | ⟨d, (rfl | hd), he⟩)
        · exact Or.inl h
        · exact Or.inl (he ▸ hmem)
        · exact Or.inr ⟨d, hd, he⟩
    · simp only [if_neg hmem, ih, List.mem_append, List.mem_cons,
        List.not_mem_nil, or_false, List.mem_singleton]
      constructor
      · rintro ((h | h) | ⟨d, hd, he⟩)
        · exact Or.inl h
        · exact Or.inr ⟨c, Or.inl rfl, h.symm⟩
        · exact Or.inr ⟨d, Or.inr hd, he⟩
      · rintro (h | ⟨d, (rfl | hd), he⟩)
        · exact Or.inl (Or.inl h)
        · exact Or.inl (Or.inr he.symm)
        · exact Or.inr ⟨d, hd, he⟩

theorem groupKeys_nodup (commits : List Commit) : (groupKeys commits).Nodup := by
  suffices h : ∀ (cs : List Commit) (acc : List Str), acc.Nodup →
      (cs.foldl (fun ks c =>
          let k' := normType c.type
          if k' ∈ ks then ks else ks ++ [k']) acc).Nodup by
    exact h commits [] List.nodup_nil
  intro cs
  induction cs with
  | nil => intro acc h; simpa
  | cons c cs ih =>
    intro acc h
    rw [List.foldl_cons]
    by_cases hmem : normType c.type ∈ acc
    · simpa [hmem] using ih acc h
    · refine ih _ ?_
      simp only [if_neg hmem]
      rw [List.nodup_append]
      exact ⟨h, List.nodup_singleton _, by simpa using hmem⟩

theorem normType_known (t : Str) : knownType (normType t) = true := by
  unfold normType
  by_cases h : knownType t = true
  · rwa [if_pos h]
  · rw [if_neg h]; decide

theorem lookup_mem (t : Str) (h : (COMMIT_TYPES.lookup t).isSome = true) :
    t ∈ COMMIT_TYPES.map Prod.fst := by
  suffices hgen : ∀ (l : List (Str × Str × Nat)), (l.lookup t).isSome → t ∈ l.map Prod.fst by
    exact hgen COMMIT_TYPES (by simpa using h)
  intro l hl
  induction l with
  | nil => simp [List.lookup] at hl
  | cons p l ih =>
    rcases p with ⟨k0, v0⟩
    cases hb : t == k0 with
    | true =>
      simp only [List.map_cons, List.mem_cons]
      exact Or.inl (eq_of_beq hb)
    | false =>
      simp only [List.lookup, hb] at hl
      simp only [List.map_cons, List.mem_cons]
      exact Or.inr (ih hl)

/-- A key whose `COMMIT_TYPES` access is truthy and whose characters are
all lowercase letters (the only keys the parser can produce) is either a
registry key or the inherited `constructor` property. -/
theorem knownType_lower (t : Str) (hk : knownType t = true)
    (hl : ∀ c ∈ t, isLowerAZ c = true) :
    t ∈ COMMIT_TYPES.map Prod.fst ∨ t = "constructor".toList := by
  unfold knownType at hk
  rw [Bool.or_eq_true] at hk
  rcases hk with hk | hk
  · exact Or.inl (lookup_mem t hk)
  · have hmem : t ∈ OBJECT_PROTO_PROPS := by simpa using hk
    fin_cases hmem
    · exact Or.inr rfl
    · exact absurd (hl 'O' (by decide)) (by decide)
    · exact absurd (hl 'P' (by decide)) (by decide)
    · exact absurd (hl 'I' (by decide)) (by decide)
    · exact absurd (hl 'L' (by decide)) (by decide)
    · exact absurd (hl 'S' (by decide)) (by decide)
    · exact absurd (hl 'O' (by decide)) (by decide)
    · exact absurd (hl '_' (by decide)) (by decide)
    · exact absurd (hl '_' (by decide)) (by decide)
    · exact absurd (hl '_' (by decide)) (by decide)
    · exact absurd (hl '_' (by decide)) (by decide)
    · exact absurd (hl '_' (by decide)) (by decide)

/-- The normalized type of a lowercase token is a registry key or the
surviving `constructor` key. -/
theorem normType_lower_mem (t : Str) (hl : ∀ c ∈ t, isLowerAZ c = true) :
    normType t ∈ COMMIT_TYPES.map Prod.fst ∨ normType t = "constructor".toList := by
  unfold normType
  by_cases h : knownType t = true
  · rw [if_pos h]; exact knownType_lower t h hl
  · rw [if_neg h]; exact Or.inl (by decide)

theorem typeOrder_inj (s t : Str)
    (hs : s ∈ COMMIT_TYPES.map Prod.fst ∨ s = "constructor".toList)
    (ht : t ∈ COMMIT_TYPES.map Prod.fst ∨ t = "constructor".toList)
    (h : typeOrder s = typeOrder t) : s = t := by
  rcases hs with hs | rfl <;> rcases ht with ht | rfl
  · revert h; fin_cases hs <;> fin_cases ht <;> decide
  · revert h; fin_cases hs <;> decide
  · revert h; fin_cases ht <;> decide
  · rfl

/-- C7 (amended): for commit lists whose types are lowercase alphabetic
tokens (the only types the parser produces), the rendered groups appear in
strictly ascending display order (in particular a `feat` section always
precedes a `fix` section regardless of input order); every emitted section
is non-empty and its commits keep the relative order of the input sequence
(sublist).  Unknown tokens are absorbed into `other` — EXCEPT the
inherited `Object.prototype` name `constructor`, which object-literal
lookup reports as present: it survives as its own section key, at display
order 99, sorting after `other` (order 11) rather than at the lowest
display priority. -/
theorem groupByType_ordering_spec (commits : List Commit)
    (hlow : ∀ c ∈ commits, ∀ ch ∈ c.type, isLowerAZ ch = true) :
    List.Pairwise (fun p q => typeOrder p.1 < typeOrder q.1) (groupByType commits) ∧
    (∀ p ∈ groupByType commits,
      p.2 ≠ [] ∧ p.2.Sublist commits ∧
      (p.1 ∈ COMMIT_TYPES.map Prod.fst ∨ p.1 = "constructor".toList)) ∧
    (∀ i j (hi : i < (groupByType commits).length)
        (hj : j < (groupByType commits).length),
      ((groupByType commits).get ⟨i, hi⟩).1 = "feat".toList →
      ((groupByType commits).get ⟨j, hj⟩).1 = "fix".toList → i < j) := by
  haveI htot : IsTotal (Str × List Commit) (fun p q => typeOrder p.1 ≤ typeOrder q.1) :=
    ⟨fun a b => Nat.le_total _ _⟩
  haveI htrans : IsTrans (Str × List Commit) (fun p q => typeOrder p.1 ≤ typeOrder q.1) :=
    ⟨fun a b c => Nat.le_trans⟩
  have hdef : groupByType commits
      = List.insertionSort (fun p q => typeOrder p.1 ≤ typeOrder q.1)
          ((groupKeys commits).map
            (fun k => (k, commits.filter (fun c => normType c.type == k)))) := rfl
  have hperm : List.Perm (groupByType commits)
      ((groupKeys commits).map
        (fun k => (k, commits.filter (fun c => normType c.type == k)))) := by
    rw [hdef]; exact List.perm_insertionSort _ _
  have hmem : ∀ p ∈ groupByType commits, p.1 ∈ groupKeys commits ∧
      p.2 = commits.filter (fun c => normType c.type == p.1) := by
    intro p hp
    rw [hperm.mem_iff, List.mem_map] at hp
    obtain ⟨k, hk, rfl⟩ := hp
    exact ⟨hk, rfl⟩
  have hfacts : ∀ p ∈ groupByType commits,
      p.2 ≠ [] ∧ p.2.Sublist commits ∧
      (p.1 ∈ COMMIT_TYPES.map Prod.fst ∨ p.1 = "constructor".toList) := by
    intro p hp
    obtain ⟨hk, hp2⟩ := hmem p hp
    obtain ⟨c, hc, he⟩ := (groupKeys_mem commits p.1).mp hk
    refine ⟨?_, ?_, ?_⟩
    · rw [hp2]
      exact List.ne_nil_of_mem (List.mem_filter.mpr ⟨hc, by simp [he]⟩)
    · rw [hp2]; exact List.filter_sublist _
    · rw [← he]; exact normType_lower_mem _ (fun ch hch => hlow c hc ch hch)
  have hsorted : List.Pairwise (fun p q => typeOrder p.1 ≤ typeOrder q.1)
      (groupByType commits) := by
    rw [hdef]
    exact List.sorted_insertionSort _ _
  have hnodupkeys : ((groupByType commits).map Prod.fst).Nodup := by
    have h2 := hperm.map Prod.fst
    rw [List.map_map] at h2
    have h1 : ((groupKeys commits).map
        (Prod.fst ∘ fun k => (k, commits.filter (fun c => normType c.type == k))))
        = groupKeys commits := List.map_id _
    rw [h1] at h2
    exact h2.nodup_iff.mpr (groupKeys_nodup commits)
  have hne : List.Pairwise (fun p q : Str × List Commit => p.1 ≠ q.1)
      (groupByType commits) := by
    have := hnodupkeys
    rw [List.Nodup, List.pairwise_map] at this
    exact this
  have hstrict : List.Pairwise (fun p q => typeOrder p.1 < typeOrder q.1)
      (groupByType commits) := by
    refine (hsorted.and hne).imp_of_mem ?_
    intro a b ha hb hab
    obtain ⟨hle, hnee⟩ := hab
    rcases Nat.lt_or_ge (typeOrder a.1) (typeOrder b.1) with h | h
    · exact h
    · exact absurd (typeOrder_inj _ _ ((hfacts a ha).2.2) ((hfacts b hb).2.2)
        (Nat.le_antisymm hle h)) hnee
  refine ⟨hstrict, hfacts, ?_⟩
  intro i j hi hj hfeat hfix
  have hij := List.pairwise_iff_get.mp hstrict
  rcases Nat.lt_trichotomy i j with h | h | h
  · exact h
  · exfalso
    subst h
    rw [hfeat] at hfix
    exact absurd hfix (by decide)
  · exfalso
    have hlt := hij ⟨j, hj⟩ ⟨i, hi⟩ (by simpa using h)
    rw [hfeat, hfix] at hlt
    exact absurd hlt (by decide)

/-- C7 witness: with `fix` before `feat` in the input, the `feat` section
still comes first, and `feat` is a registry key. -/
theorem groupByType_ordering_witness :
    (0 : Nat) < 1 ∧
    ("feat".toList ∈ COMMIT_TYPES.map Prod.fst ∨ "feat".toList = "constructor".toList) :=
  ⟨(groupByType_ordering_spec [⟨[], "fix".toList, none, ['b'], [], false, []⟩,
      ⟨[], "feat".toList, none, ['a'], [], false, []⟩] (by decide)).2.2 0 1 (by decide)
      (by decide) (by decide) (by decide),
   ((groupByType_ordering_spec [⟨[], "feat".toList, none, ['a'], [], false, []⟩]
      (by decide)).2.1
      ("feat".toList, [⟨[], "feat".toList, none, ['a'], [], false, []⟩]) (by decide)).2.2⟩

/-- C7 counterexample: the program does not absorb every non-registry
token into `other` at the lowest priority.  A commit subject such as
`constructor: …` parses with type `constructor`; `COMMIT_TYPES['constructor']`
is the inherited `Object` constructor (truthy), so the type is kept as its
own group, it is not a registry key, and its display order is the fallback
99 — sorting after `other` (order 11), so `other` is not the lowest
priority. -/
theorem groupByType_proto_counterexample :
    (groupByType [⟨[], "constructor".toList, none, [], [], false, []⟩,
                  ⟨[], "wip".toList, none, [], [], false, []⟩]).map Prod.fst
      = ["other".toList, "constructor".toList] ∧
    ¬ "constructor".toList ∈ COMMIT_TYPES.map Prod.fst ∧
    typeOrder "constructor".toList = 99 ∧
    typeOrder "other".toList = 11 := by
  refine ⟨by decide, by decide, by decide, by decide⟩

/-! ## Changelog structure (C4) -/

set_option maxRecDepth 8192 in
/-- C4 counterexample: with a single breaking `feat` commit, the rendered
changelog lists the commit both in BREAKING CHANGES and in a Features
section — the category sections do not group "only the remaining
(non-breaking) commits", so the output differs from the spec-modelled
variant that groups only non-breaking commits. -/
theorem generateChangelog_grouping_counterexample :
    generateChangelog "2.0.0".toList
        [⟨"cccc".toList, "feat".toList, none, "drop legacy API".toList, [], true, []⟩]
        none "2026-10-11".toList
      = ("## [2.0.0] - 2026-10-11\n\n### BREAKING CHANGES\n\n- drop legacy API\n\n" ++
         "### Features\n\n- drop legacy API ([cccc])\n\n" ++
         "[2.0.0]: https://github.com/NickCirv/release-pilot/releases/tag/v2.0.0").toList ∧
    generateChangelog "2.0.0".toList
        [⟨"cccc".toList, "feat".toList, none, "drop legacy API".toList, [], true, []⟩]
        none "2026-10-11".toList
      ≠ generateChangelogSpecGrouping "2.0.0".toList
        [⟨"cccc".toList, "feat".toList, none, "drop legacy API".toList, [], true, []⟩]
        none "2026-10-11".toList := by
  constructor
  · decide
  · decide

/-- C4 (amended): when at least one commit is breaking, the changelog
opens with the header followed by a `BREAKING CHANGES` section holding
exactly one bullet per breaking commit formatted `<**scope**: >description`
(scope prefix omitted when absent) — but the category sections that follow
group ALL commits, so breaking commits appear again under their own
category. -/
theorem generateChangelog_breaking_first (version : Str) (commits : List Commit)
    (lastTag : Option Str) (today : Str)
    (h : hasBreakingChanges commits = true) :
    generateChangelog version commits lastTag today
      = joinLines (
          ["## [".toList ++ version ++ "] - ".toList ++ today, [],
           "### BREAKING CHANGES".toList, []] ++
          (commits.filter (·.breaking)).map
            (fun c => "- ".toList ++ scopePrefix c.scope ++ c.description) ++
          [[]] ++
          (groupByType commits).flatMap sectionLines ++
          [refLink version lastTag]) := by
  have hb : collectBreakingChanges commits ≠ [] := by
    unfold hasBreakingChanges at h
    rw [List.any_eq_true] at h
    obtain ⟨c, hc, hcb⟩ := h
    unfold collectBreakingChanges
    simp only [ne_eq, List.map_eq_nil_iff]
    exact List.ne_nil_of_mem (List.mem_filter.mpr ⟨hc, hcb⟩)
  have hcond : ¬ (∀ a ∈ commits, a.breaking = false) := by
    unfold hasBreakingChanges at h
    rw [List.any_eq_true] at h
    obtain ⟨c, hc, hcb⟩ := h
    intro hall
    rw [hall c hc] at hcb
    exact Bool.false_ne_true hcb
  unfold generateChangelog
  simp only [if_neg hb]
  simp only [collectBreakingChanges, List.map_map, List.append_assoc,
    List.cons_append, List.nil_append]
  rfl

/-- C4 witness: the amended decomposition at a concrete breaking commit. -/
theorem generateChangelog_breaking_first_witness :
    generateChangelog "2.0.0".toList
        [⟨[], "feat".toList, none, "x".toList, [], true, []⟩] none "2026-10-11".toList
      = joinLines (
          ["## [".toList ++ "2.0.0".toList ++ "] - ".toList ++ "2026-10-11".toList, [],
           "### BREAKING CHANGES".toList, []] ++
          (([⟨[], "feat".toList, none, "x".toList, [], true, []⟩] : List Commit).filter
              (·.breaking)).map
            (fun c => "- ".toList ++ scopePrefix c.scope ++ c.description) ++
          [[]] ++
          (groupByType [⟨[], "feat".toList, none, "x".toList, [], true, []⟩]).flatMap
            sectionLines ++
          [refLink "2.0.0".toList none]) :=
  generateChangelog_breaking_first "2.0.0".toList
    [⟨[], "feat".toList, none, "x".toList, [], true, []⟩] none "2026-10-11".toList
    (by decide)

end ReleasePilot
